import Mathlib

/-!
Verification of the BFSK modem codec of the acoustic-modems repository.

The development shallowly embeds the bit-level pipeline of
`src/modems/bfsk/__init__.py` and `src/src/amw/pipeline/fec.py`:
bit framing, interleaving, the three FEC codecs, and the synchronizing
demodulator.  Machine floats of the source are modelled by exact
rationals; the transcendental primitives the source takes from numpy
(`sin`, `cos`, `sqrt`) are passed in as an explicit structure of
rational-valued functions (`RealPrims`), so that every definition stays
computable while keeping the control flow of the source line for line.
numpy `uint8` arithmetic is modelled with explicit `% 256` wraparound.
-/

/-! ## Basic numeric helpers -/

/-- Python `int()` applied to a real quantity: truncation toward zero.
Models `int(sample_rate / bit_rate)` and friends. -/
def pyInt (q : ℚ) : ℤ := if q < 0 then -⌊-q⌋ else ⌊q⌋

/-- Python 3 `round()` on a real quantity: round half to even
(banker's rounding), which is what `round(sample_rate / bit_rate)`
performs in `decode`. -/
def pyRound (q : ℚ) : ℤ :=
  if Int.fract q = 1/2 then (if ⌊q⌋ % 2 = 0 then ⌊q⌋ else ⌊q⌋ + 1) else round q

/-- `np.clip(value, lo, hi)` = `minimum(maximum(value, lo), hi)`. -/
def npClip (value lo hi : ℚ) : ℚ := min (max value lo) hi

/-- Python `str.lower()`, character by character (the scheme names involved
are plain ASCII). -/
def pyLower (s : String) : String := ⟨s.data.map Char.toLower⟩

/-- Dot product of two rational vectors, `np.dot`. -/
def dotQ (xs ys : List ℚ) : ℚ := (List.zipWith (· * ·) xs ys).sum

/-- Sum of squares of a vector; `np.linalg.norm` is the square root of this. -/
def sumSq (xs : List ℚ) : ℚ := dotQ xs xs

/-- Structural worker for `chunksOf`; the fuel argument only bounds the
recursion depth and is always supplied as the list length, which suffices
because each step consumes at least one element when `k >= 1`. -/
def chunksOfAux (k : Nat) : List α → Nat → List (List α)
  | [], _ => []
  | _ :: _, 0 => []
  | a :: rest, fuel + 1 =>
    (a :: rest).take k :: chunksOfAux k ((a :: rest).drop k) fuel

/-- Split a list into consecutive chunks of `k` elements (the last chunk may
be shorter).  Models `ndarray.reshape(-1, k)` after trimming to a multiple
of `k`, in which case every chunk is full. -/
def chunksOf (k : Nat) (l : List α) : List (List α) :=
  if k = 0 then [] else chunksOfAux k l l.length

/-! ## Samples per bit (`encode` line 80, `decode` line 132) -/

/-- The samples-per-bit value computed by `encode`:
`samples_per_bit = max(int(sample_rate / bit_rate), 1)` — note the
truncating `int()`, not `round()`. -/
def encodeSamplesPerBit (sampleRate bitRate : ℚ) : ℤ :=
  max (pyInt (sampleRate / bitRate)) 1

/-- The samples-per-bit value reported by `decode` in its metrics:
`int(round(sample_rate / bit_rate))`. -/
def decodeSamplesPerBitMetric (sampleRate bitRate : ℚ) : ℤ :=
  pyRound (sampleRate / bitRate)

/-! ## Interleaver (`_interleave_indices`, `_interleave_bits`,
`_deinterleave_bits`) -/

/-- The index order produced by `_interleave_indices(length, depth)`:
indices are written row-major into a `ceil(length/depth) x depth` grid and
read out column-major, skipping indices beyond `length`.  The source first
clamps `depth` to at least 1. -/
def interleaveIndices (length depth : Nat) : List Nat :=
  if max depth 1 = 1 ∨ length ≤ 1 then List.range length
  else
    (List.range (max depth 1)).flatMap fun column =>
      ((List.range ((length + max depth 1 - 1) / max depth 1)).map
        fun row => row * max depth 1 + column).filter
          fun idx => idx < length

/-- `_interleave_bits(bits, depth)`: identity for `depth <= 1` or empty
input, otherwise fancy indexing `bits[order]`. -/
def interleaveBits [Inhabited α] (bits : List α) (depth : Nat) : List α :=
  if depth ≤ 1 ∨ bits.length = 0 then bits
  else (interleaveIndices bits.length depth).map fun i => bits.getD i default

/-- `_deinterleave_bits(bits, depth)`: the source scatters
`restore[order] = arange(order.size)` and returns `bits[restore]`; since
`order` is a permutation of `range(length)` (proved below), `restore[j]` is
exactly the position of `j` inside `order`, which `List.indexOf` computes. -/
def deinterleaveBits [Inhabited α] (bits : List α) (depth : Nat) : List α :=
  if depth ≤ 1 ∨ bits.length = 0 then bits
  else
    (List.range (interleaveIndices bits.length depth).length).map
      fun j => bits.getD ((interleaveIndices bits.length depth).indexOf j)
        default

/-! ## FEC codecs (`src/src/amw/pipeline/fec.py`) -/

/-- The metrics dictionary a codec decode returns.  `discardedSymbols` is an
`Option` because the pass-through codec (and the empty-input branch of the
repetition codec) omits the `discarded_symbols` key. -/
structure FecMetrics where
  correctedBits : Nat
  uncorrectableBlocks : Nat
  discardedSymbols : Option Nat
deriving Repr, DecidableEq

/-- numpy `uint8` subtraction: `a - b` wraps modulo 256.  For the 0/1 values
that occur in bit arrays, `u8sub 0 1 = 255`. -/
def u8sub (a b : Nat) : Nat := (a + 256 - b) % 256

/-- Integer dot product, used for the mod-2 matrix products of the
Hamming codec. -/
def natDot (xs ys : List Nat) : Nat := (List.zipWith (· * ·) xs ys).sum

/-- `matrix @ vector % 2` for a 0/1 matrix given as rows. -/
def matVecMod2 (m : List (List Nat)) (v : List Nat) : List Nat :=
  m.map fun row => natDot row v % 2

/-- `_RepetitionCodec.encode`: `np.repeat(bits, factor)`. -/
def repetitionEncode (factor : Nat) (bits : List Nat) : List Nat :=
  bits.flatMap fun b => List.replicate factor b

/-- `_RepetitionCodec.decode`.  The source computes
`corrected = np.abs(trimmed - majority[:, None]).sum()` on `uint8` arrays,
so a raw bit 0 in a majority-1 group contributes `0 - 1 = 255` (wraparound,
`np.abs` is the identity on unsigned values); the accumulating sum is
performed at platform-integer width and does not wrap.  `u8sub` models this
faithfully. -/
def repetitionDecode (factor : Nat) (bits : List Nat) : List Nat × FecMetrics :=
  if bits.length = 0 then
    (bits, { correctedBits := 0, uncorrectableBlocks := 0,
             discardedSymbols := none })
  else
    let usable := bits.length / factor * factor
    let groups := chunksOf factor (bits.take usable)
    let majority := groups.map fun g => if g.sum > factor / 2 then 1 else 0
    let corrected :=
      ((groups.zip majority).map fun p =>
        (p.1.map fun b => u8sub b p.2).sum).sum
    (majority,
      { correctedBits := corrected, uncorrectableBlocks := 0,
        discardedSymbols := some (bits.length - usable) })

/-- The repetition-codec metric the spec describes: per complete group, the
Hamming distance between the raw group and the all-majority-value vector,
summed over groups. -/
def repetitionSpecCorrectedBits (factor : Nat) (bits : List Nat) : Nat :=
  let usable := bits.length / factor * factor
  let groups := chunksOf factor (bits.take usable)
  (groups.map fun g =>
    (g.map fun b =>
      if b = (if g.sum > factor / 2 then 1 else 0) then 0 else 1).sum).sum

/-- The generator matrix of `_Hamming74Codec`. -/
def hammingGenerator : List (List Nat) :=
  [[1, 1, 0, 1], [1, 0, 1, 1], [1, 0, 0, 0], [0, 1, 1, 1],
   [0, 1, 0, 0], [0, 0, 1, 0], [0, 0, 0, 1]]

/-- The parity-check matrix of `_Hamming74Codec`. -/
def hammingParityCheck : List (List Nat) :=
  [[1, 0, 1, 0, 1, 0, 1], [0, 1, 1, 0, 0, 1, 1], [0, 0, 0, 1, 1, 1, 1]]

/-- `_Hamming74Codec.encode`: right-pad with zeros to a multiple of 4, then
emit `generator @ data % 2` per 4-bit group. -/
def hammingEncode (bits : List Nat) : List Nat :=
  if bits.length = 0 then bits
  else
    (chunksOf 4
      (bits ++ List.replicate ((4 - bits.length % 4) % 4) 0)).flatMap
        fun group => matVecMod2 hammingGenerator group

/-- `encoded[i] ^= 1` on a 0/1 bit list. -/
def flipBitAt (l : List Nat) (i : Nat) : List Nat :=
  l.mapIdx fun j b => if j = i then b ^^^ 1 else b

/-- One iteration of the `_Hamming74Codec.decode` correction loop: returns
the corrected codeword together with the per-block increments of
`corrected_bits` and `uncorrectable_blocks`.  The syndrome index is
`syndromes.dot(1 << arange(3))`. -/
def hammingCorrectBlock (block : List Nat) : List Nat × Nat × Nat :=
  let idx := natDot (matVecMod2 hammingParityCheck block) [1, 2, 4]
  if idx = 0 then (block, 0, 0)
  else if 1 ≤ idx ∧ idx ≤ 7 then (flipBitAt block (idx - 1), 1, 0)
  else (block, 0, 1)

/-- `_Hamming74Codec.decode`: trim to whole 7-bit codewords, correct each
block by syndrome, then read data bits from positions 2, 4, 5, 6 of each
corrected codeword. -/
def hammingDecode (bits : List Nat) : List Nat × FecMetrics :=
  if bits.length = 0 then
    (bits, { correctedBits := 0, uncorrectableBlocks := 0,
             discardedSymbols := some 0 })
  else
    let usable := bits.length / 7 * 7
    let results := (chunksOf 7 (bits.take usable)).map hammingCorrectBlock
    ((results.flatMap fun r =>
        [r.1.getD 2 0, r.1.getD 4 0, r.1.getD 5 0, r.1.getD 6 0]),
      { correctedBits := (results.map fun r => r.2.1).sum,
        uncorrectableBlocks := (results.map fun r => r.2.2).sum,
        discardedSymbols := some (bits.length - usable) })

/-- The closed set of codecs `build_codec` can return. -/
inductive FecCodec where
  | noop : FecCodec
  | repetition : Int → FecCodec
  | hamming74 : FecCodec
deriving Repr, DecidableEq

/-- `build_codec(config)` together with `_RepetitionCodec.__init__`
validation; raising `ValueError` is modelled as `Except.error`. -/
def buildCodec (scheme : String) (repetitionFactor : Int) :
    Except String FecCodec :=
  if pyLower scheme = "none" then .ok .noop
  else if pyLower scheme = "repetition" then
    if repetitionFactor < 1 then
      .error "Repetition factor must be at least 1."
    else if repetitionFactor % 2 = 0 then
      .error "Repetition factor must be odd to allow majority voting."
    else .ok (.repetition repetitionFactor)
  else if pyLower scheme = "hamming74" then .ok .hamming74
  else .error ("Unsupported FEC scheme " ++ scheme)

/-- The raw `fec` sub-dictionary of the modem parameters: each field is
`none` when the key is missing (or its value is Python `None`). -/
structure FecRaw where
  scheme : Option String
  repetitionFactor : Option Int
  interleaveDepth : Option Int

/-- The result of `_parse_fec_settings`. -/
structure FecSettings where
  scheme : String
  repetitionFactor : Int
  interleaveDepth : Int
deriving Repr, DecidableEq

/-- `_parse_fec_settings`: note `int(config.get("repetition_factor", 3) or 3)`
maps a present-but-zero factor to the default 3 (Python `or` on a falsy
value), and `interleave_depth` is clamped to at least 1. -/
def parseFecSettings (raw : FecRaw) : FecSettings :=
  { scheme := pyLower (raw.scheme.getD "none"),
    repetitionFactor :=
      match raw.repetitionFactor with
      | none => 3
      | some v => if v = 0 then 3 else v,
    interleaveDepth :=
      max (match raw.interleaveDepth with
        | none => 1
        | some v => if v = 0 then 1 else v) 1 }

/-- Codec construction as the modem performs it: parse the raw `fec`
parameters, then run the factory. -/
def buildCodecFromRaw (raw : FecRaw) : Except String FecCodec :=
  buildCodec (parseFecSettings raw).scheme (parseFecSettings raw).repetitionFactor

/-- Dispatch of `codec.encode(bits)`. -/
def codecEncode : FecCodec → List Nat → List Nat
  | .noop, bits => bits
  | .repetition f, bits => repetitionEncode f.toNat bits
  | .hamming74, bits => hammingEncode bits

/-- Dispatch of `codec.decode(bits)`. -/
def codecDecode : FecCodec → List Nat → List Nat × FecMetrics
  | .noop, bits =>
    (bits, { correctedBits := 0, uncorrectableBlocks := 0,
             discardedSymbols := none })
  | .repetition f, bits => repetitionDecode f.toNat bits
  | .hamming74, bits => hammingDecode bits

/-! ## The synchronizing demodulator (`src/modems/bfsk/__init__.py`)

The source computes with `float32`/`float64`; the model uses exact
rationals.  The three transcendental primitives numpy supplies — square
root and the sine/cosine used for carriers, windows and the modulator —
are passed in as a structure of rational-valued functions, so every
definition stays computable and the control flow of the source is kept
exactly.  Theorems quantify over the primitives (adding only the facts
about real `sqrt`/`sin`/`cos` they actually need, such as `sqrt 0 = 0`),
so they hold in particular for the real-valued interpretations. -/

/-- The numeric primitives the source takes from numpy.  `sinTwoPi x`
stands for `sin(2 * pi * x)` and `cosTwoPi x` for `cos(2 * pi * x)`
(the source always forms angles as `2 * np.pi * t`); `sqrt` stands for
`np.sqrt` on nonnegative arguments. -/
structure RealPrims where
  sqrt : ℚ → ℚ
  sinTwoPi : ℚ → ℚ
  cosTwoPi : ℚ → ℚ

/-- A degenerate all-zero instantiation of the primitives, used to
evaluate the model on concrete inputs whose control flow never depends on
a primitive value (empty or all-zero waveforms). -/
def zeroPrims : RealPrims :=
  { sqrt := fun _ => 0, sinTwoPi := fun _ => 0, cosTwoPi := fun _ => 0 }

/-- `_SymbolSyncResult`. -/
structure SymbolSyncResult where
  startIndex : Nat
  samplesPerBit : Nat
  score : ℚ
deriving Repr, DecidableEq

/-- The tuple `_build_symbol_kernel` returns: smoothing window plus the
real and imaginary parts of the two complex reference carriers. -/
structure SymbolKernel where
  window : List ℚ
  carrier0Re : List ℚ
  carrier0Im : List ℚ
  carrier1Re : List ℚ
  carrier1Im : List ℚ

/-- `_symbol_window(length)`: flat if `length <= 3`, otherwise
`np.hanning(length)`, whose entries are `0.5 - 0.5 cos(2 pi n/(M-1))`. -/
def symbolWindow (p : RealPrims) (length : Nat) : List ℚ :=
  if length ≤ 3 then List.replicate length 1
  else (List.range length).map fun n =>
    1/2 - 1/2 * p.cosTwoPi ((n : ℚ) / ((length : ℚ) - 1))

/-- Real part of `_carrier(length, freq, sample_rate)`:
`cos(2 pi freq/sample_rate * n)`. -/
def carrierRe (p : RealPrims) (length : Nat) (freq sampleRate : ℚ) :
    List ℚ :=
  (List.range length).map fun n => p.cosTwoPi (freq / sampleRate * (n : ℚ))

/-- Imaginary part of `_carrier`: `-sin(2 pi freq/sample_rate * n)`. -/
def carrierIm (p : RealPrims) (length : Nat) (freq sampleRate : ℚ) :
    List ℚ :=
  (List.range length).map fun n => -(p.sinTwoPi (freq / sampleRate * (n : ℚ)))

/-- `_build_symbol_kernel`. -/
def buildSymbolKernel (p : RealPrims) (samplesPerBit : Nat)
    (freq0 freq1 sampleRate : ℚ) : SymbolKernel :=
  { window := symbolWindow p samplesPerBit,
    carrier0Re := carrierRe p samplesPerBit freq0 sampleRate,
    carrier0Im := carrierIm p samplesPerBit freq0 sampleRate,
    carrier1Re := carrierRe p samplesPerBit freq1 sampleRate,
    carrier1Im := carrierIm p samplesPerBit freq1 sampleRate }

/-- `np.abs` of a complex number given by real and imaginary parts. -/
def complexAbsQ (p : RealPrims) (re im : ℚ) : ℚ := p.sqrt (re * re + im * im)

/-- The numpy slice `signal[start : start + length]`. -/
def listSlice (signal : List ℚ) (start length : Nat) : List ℚ :=
  (signal.drop start).take length

/-- `_symbol_difference(segment, window, carrier0, carrier1)`:
`|dot(segment * window, carrier1)| - |dot(segment * window, carrier0)|`,
or 0.0 on a length mismatch. -/
def symbolDifference (p : RealPrims) (segment : List ℚ) (k : SymbolKernel) :
    ℚ :=
  if segment.length ≠ k.window.length then 0
  else
    complexAbsQ p (dotQ (List.zipWith (· * ·) segment k.window) k.carrier1Re)
        (dotQ (List.zipWith (· * ·) segment k.window) k.carrier1Im)
      - complexAbsQ p (dotQ (List.zipWith (· * ·) segment k.window) k.carrier0Re)
          (dotQ (List.zipWith (· * ·) segment k.window) k.carrier0Im)

/-- The loop of `_symbol_differences`: emit one windowed discriminant per
consecutive `samples_per_bit`-wide window (`samples_per_bit` is the window
size there), truncating when a window would run past the buffer end. -/
def symbolDifferencesAux (p : RealPrims) (signal : List ℚ) (k : SymbolKernel) :
    Nat → Nat → List ℚ
  | _, 0 => []
  | start, count + 1 =>
    if signal.length < start + k.window.length then []
    else symbolDifference p (listSlice signal start k.window.length) k
      :: symbolDifferencesAux p signal k (start + k.window.length) count

/-- `_symbol_differences(signal, start_index, window, carrier0, carrier1,
count)`. -/
def symbolDifferences (p : RealPrims) (signal : List ℚ) (startIndex : Nat)
    (k : SymbolKernel) (count : Nat) : List ℚ :=
  symbolDifferencesAux p signal k startIndex count

/-- `_correlate(observed, reference, reference_norm)`: `None` when the
observed energy is below `1e-6`, otherwise the normalized correlation
`dot / (energy * reference_norm + 1e-12)`. -/
def correlate (p : RealPrims) (observed reference : List ℚ)
    (referenceNorm : ℚ) : Option ℚ :=
  if p.sqrt (sumSq observed) < 1/1000000 then none
  else some (dotQ observed reference
    / (p.sqrt (sumSq observed) * referenceNorm + 1/1000000000000))

/-- The best-so-far update both search loops use:
`if best is None or score > best.score: best = candidate` — note the
strict comparison, so on an exact tie the earlier candidate wins. -/
def updateBest (best : Option SymbolSyncResult) (cand : SymbolSyncResult) :
    Option SymbolSyncResult :=
  match best with
  | none => some cand
  | some b => if cand.score > b.score then some cand else some b

/-- Python `range(lo, hi + 1, step)` for `step >= 1`, as a list. -/
def pyRangeIncl (lo hi step : Nat) : List Nat :=
  if hi < lo then []
  else (List.range ((hi - lo) / step + 1)).map fun i => lo + i * step

/-- The body of the `_scan_for_preamble` loop: compute the discriminant
vector at each offset, stop (`break`) if it comes back truncated, skip
offsets with no correlation score, and keep the best-scoring offset. -/
def scanLoop (p : RealPrims) (signal : List ℚ) (k : SymbolKernel)
    (reference : List ℚ) (referenceNorm : ℚ) (spb : Nat) :
    List Nat → Option SymbolSyncResult → Option SymbolSyncResult
  | [], best => best
  | start :: rest, best =>
    if (symbolDifferences p signal start k reference.length).length
        ≠ reference.length then best
    else
      match correlate p (symbolDifferences p signal start k reference.length)
          reference referenceNorm with
      | none => scanLoop p signal k reference referenceNorm spb rest best
      | some score =>
        scanLoop p signal k reference referenceNorm spb rest
          (updateBest best ⟨start, spb, score⟩)

/-- `_scan_for_preamble`. -/
def scanForPreamble (p : RealPrims) (signal : List ℚ) (k : SymbolKernel)
    (reference : List ℚ) (referenceNorm : ℚ) (spb : Nat)
    (startMin startMax step : Nat) : Option SymbolSyncResult :=
  if startMax < startMin then none
  else scanLoop p signal k reference referenceNorm spb
    (pyRangeIncl startMin startMax (max step 1)) none

/-- The five relative timing offsets
`np.linspace(-_SYNC_TIMING_PCT, _SYNC_TIMING_PCT, _SYNC_TIMING_STEPS)`
with `pct = 0.02` and five steps; the model uses the exact rationals the
floats approximate. -/
def syncTimingOffsets : List ℚ := [-1/50, -1/100, 0, 1/100, 1/50]

/-- The candidate samples-per-bit values of `_synchronize`:
`sorted({max(8, int(round(nominal * (1 + offset)))) for offset in ...})`. -/
def syncCandidates (sampleRate bitRate : ℚ) : List Nat :=
  List.insertionSort (· ≤ ·)
    ((syncTimingOffsets.map fun offset =>
      (max 8 (pyRound (sampleRate / bitRate * (1 + offset)))).toNat).dedup)

/-- `_preamble_array(preamble_bits)`: character `1` maps to bit 1, every
other character to 0. -/
def preambleArray (preambleBits : String) : List Nat :=
  preambleBits.data.map fun c => if c = '1' then 1 else 0

/-- The per-candidate body of the `_synchronize` loop: skip the candidate
when even one preamble does not fit, otherwise coarse scan (stride
`max(4, spb // 8)`), refine within one bit-time (stride `max(1, spb // 32)`)
and fall back to the coarse result when refinement finds no score. -/
def perCandidate (p : RealPrims) (signal : List ℚ)
    (sampleRate freq0 freq1 : ℚ) (reference : List ℚ) (referenceNorm : ℚ)
    (spb : Nat) : Option SymbolSyncResult :=
  if signal.length < spb * reference.length then none
  else
    match scanForPreamble p signal
        (buildSymbolKernel p spb freq0 freq1 sampleRate) reference
        referenceNorm spb 0 (signal.length - spb * reference.length)
        (max 4 (spb / 8)) with
    | none => none
    | some coarse =>
      some ((scanForPreamble p signal
        (buildSymbolKernel p spb freq0 freq1 sampleRate) reference
        referenceNorm spb (coarse.startIndex - spb)
        (min (signal.length - spb * reference.length)
          (coarse.startIndex + spb))
        (max 1 (spb / 32))).getD coarse)

/-- One step of the best-candidate accumulation in `_synchronize`:
`continue` on a skipped candidate, otherwise the strict best-score
update. -/
def skipNoneUpdate (result best : Option SymbolSyncResult) :
    Option SymbolSyncResult :=
  match result with
  | none => best
  | some cand => updateBest best cand

/-- `_synchronize`: empty preamble yields `None`; otherwise fold the
per-candidate results in ascending candidate order, keeping the best score
with the strict-comparison update (first candidate wins ties).  The
reference norm `float(np.linalg.norm(reference)) or 1.0` maps a zero norm
to 1. -/
def synchronize (p : RealPrims) (signal : List ℚ)
    (sampleRate bitRate freq0 freq1 : ℚ) (preambleBits : String) :
    Option SymbolSyncResult :=
  if (preambleArray preambleBits).length = 0 then none
  else
    (syncCandidates sampleRate bitRate).foldl
      (fun best c =>
        skipNoneUpdate (perCandidate p signal sampleRate freq0 freq1
          ((preambleArray preambleBits).map fun b =>
            if b > 0 then (1 : ℚ) else -1)
          (if p.sqrt (sumSq ((preambleArray preambleBits).map fun b =>
              if b > 0 then (1 : ℚ) else -1)) = 0 then 1
           else p.sqrt (sumSq ((preambleArray preambleBits).map fun b =>
              if b > 0 then (1 : ℚ) else -1))) c) best) none

/-- `_apply_agc(signal, target=0.4, max_gain=20.0)`: no-op below the
near-zero RMS floor, otherwise scale by the clamped gain.  The RMS is
`sqrt(mean(signal ** 2) + 1e-12)`. -/
def applyAgc (p : RealPrims) (signal : List ℚ) : List ℚ :=
  if p.sqrt (sumSq signal / (signal.length : ℚ) + 1/1000000000000)
      < 1/1000000000 then signal
  else signal.map fun s => s * npClip
    ((2/5) / p.sqrt (sumSq signal / (signal.length : ℚ) + 1/1000000000000))
    (1/20) 20

/-- The loop of `_demodulate_bits`: one bit per window, 1 when the
discriminant is nonnegative, truncating at the buffer end. -/
def demodLoopAux (p : RealPrims) (signal : List ℚ) (k : SymbolKernel)
    (spb : Nat) : Nat → Nat → List Nat
  | _, 0 => []
  | start, count + 1 =>
    if signal.length < start + spb then []
    else (if symbolDifference p (listSlice signal start spb) k ≥ 0
      then 1 else 0)
      :: demodLoopAux p signal k spb (start + spb) count

/-- `_demodulate_bits(signal, sync, sample_rate, freq0, freq1)`. -/
def demodulateBits (p : RealPrims) (signal : List ℚ)
    (sync : SymbolSyncResult) (sampleRate freq0 freq1 : ℚ) : List Nat :=
  if sync.samplesPerBit = 0 then []
  else demodLoopAux p signal
    (buildSymbolKernel p sync.samplesPerBit freq0 freq1 sampleRate)
    sync.samplesPerBit sync.startIndex
    ((signal.length - sync.startIndex) / sync.samplesPerBit)

/-! ## Bit framing and byte packing -/

/-- `np.unpackbits` of one byte: most-significant bit first. -/
def byteToBits (b : Nat) : List Nat :=
  (List.range 8).map fun i => b / 2 ^ (7 - i) % 2

/-- `_payload_bits(payload)`. -/
def payloadBitsOf (payload : List Nat) : List Nat :=
  payload.flatMap byteToBits

/-- `_length_header(bit_length)`: the 32-bit big-endian expansion. -/
def lengthHeader (bitLength : Nat) : List Nat :=
  (List.range 32).map fun i => bitLength / 2 ^ (31 - i) % 2

/-- The value of a most-significant-bit-first bit list, as used both by
`np.packbits` per byte and by the 32-bit header read
(`int.from_bytes(np.packbits(header).tobytes(), "big")`). -/
def bigEndianValue (bits : List Nat) : Nat :=
  bits.foldl (fun acc b => acc * 2 + b) 0

/-- `_bits_to_bytes(bits)`: zero-pad on the right to a whole number of
bytes, then pack each group of 8 most-significant-bit-first. -/
def bitsToBytes (bits : List Nat) : List Nat :=
  if bits.length = 0 then []
  else (chunksOf 8
    (bits ++ List.replicate ((8 - bits.length % 8) % 8) 0)).map bigEndianValue

/-! ## Top-level `encode` and `decode` -/

/-- The merged configuration `{**DEFAULT_PARAMS, **params}` both entry
points start from (the repository's `defaults.json` only supplies default
values for these same keys). -/
structure ModemConfig where
  sampleRate : ℚ
  bitRate : ℚ
  freq0 : ℚ
  freq1 : ℚ
  amplitude : ℚ
  preambleBits : String
  fec : FecRaw

/-- The decode metrics dictionary; `none` models an absent key.  Of the
nested `fec` dictionary, the scheme, the inner status, the truncation
count and the per-codec correction counters are modelled
(`fecScheme`, `fecStatus`, `truncatedBits`, `fecMetrics`); its size
bookkeeping entries (`payload_bits`, `encoded_bits`, `interleave_depth`),
which no claim mentions, are not. -/
structure DecodeMetrics where
  bitCount : Nat
  preambleBits : Nat
  bitrate : Option ℚ
  samplesPerBit : Option ℤ
  syncScore : Option ℚ
  syncStart : Option Nat
  dataBits : Option Nat
  status : Option String
  fecScheme : Option String
  fecStatus : Option String
  truncatedBits : Option Nat
  fecMetrics : Option FecMetrics
deriving Repr, DecidableEq

/-- `DecodeOutput` of the plugin contract: payload bytes plus metrics. -/
structure DecodeOutput where
  payload : List Nat
  metrics : DecodeMetrics
deriving Repr, DecidableEq

/-- The frame bits of `encode`: payload bits alone for the no-FEC scheme,
otherwise the 32-bit length header followed by the payload bits (the
source concatenates `[header, payload_bits]`, or keeps just the header when
the payload is empty, which is the same list). -/
def frameBits (settings : FecSettings) (payload : List Nat) : List Nat :=
  if settings.scheme = "none" then payloadBitsOf payload
  else lengthHeader (payloadBitsOf payload).length ++ payloadBitsOf payload

/-- FEC-encode the frame and interleave it when the depth exceeds 1 and
there are bits to permute. -/
def encodedStream (codec : FecCodec) (settings : FecSettings)
    (payload : List Nat) : List Nat :=
  if 1 < settings.interleaveDepth ∧
      codecEncode codec (frameBits settings payload) ≠ [] then
    interleaveBits (codecEncode codec (frameBits settings payload))
      settings.interleaveDepth.toNat
  else codecEncode codec (frameBits settings payload)

/-- `encode(payload, params)`, waveform only (raising `ValueError` from
codec construction is `Except.error`).  Each bit becomes
`samples_per_bit` samples of `amplitude * sin(2 pi freq * n / sample_rate)`
with phase restarting at every bit; `encode` first casts the sample rate
with `int()`. -/
def encodeModel (p : RealPrims) (cfg : ModemConfig) (payload : List Nat) :
    Except String (List ℚ) :=
  match buildCodecFromRaw cfg.fec with
  | .error e => .error e
  | .ok codec =>
    .ok ((preambleArray cfg.preambleBits
        ++ encodedStream codec (parseFecSettings cfg.fec) payload).flatMap
      fun b =>
        (List.range (encodeSamplesPerBit (pyInt cfg.sampleRate : ℚ)
          cfg.bitRate).toNat).map fun n =>
            cfg.amplitude * p.sinTwoPi
              ((if b ≠ 0 then cfg.freq1 else cfg.freq0)
                * ((n : ℚ) / (pyInt cfg.sampleRate : ℚ))))

/-- The bit array `decode` demodulates: AGC-conditioned signal, windows of
the resolved samples-per-bit starting at the synchronized offset. -/
def decodedBitArray (p : RealPrims) (cfg : ModemConfig) (waveform : List ℚ)
    (s : SymbolSyncResult) : List Nat :=
  demodulateBits p (applyAgc p waveform) s cfg.sampleRate cfg.freq0 cfg.freq1

/-- The encoded region handed to the codec on decode: everything after the
preamble, deinterleaved when the depth exceeds 1 and bits remain. -/
def fecRegion (settings : FecSettings) (bitArray : List Nat) (preLen : Nat) :
    List Nat :=
  if 1 < settings.interleaveDepth ∧ bitArray.drop preLen ≠ [] then
    deinterleaveBits (bitArray.drop preLen) settings.interleaveDepth.toNat
  else bitArray.drop preLen

/-- The FEC tail of `decode`: codec-decode the deinterleaved region; fewer
than 32 decoded bits is a header failure (`status = fec_failed`), otherwise
the 32-bit big-endian header declares the payload bit length, truncated to
the available bits with the truncation recorded. -/
def decodeFecTail (codec : FecCodec) (settings : FecSettings)
    (bitArray : List Nat) (preLen : Nat) (bitRate : ℚ)
    (s : SymbolSyncResult) : DecodeOutput :=
  if (codecDecode codec (fecRegion settings bitArray preLen)).1.length < 32
  then
    ⟨[], { bitCount := bitArray.length, preambleBits := preLen,
           bitrate := some bitRate,
           samplesPerBit := some (s.samplesPerBit : ℤ),
           syncScore := some s.score, syncStart := some s.startIndex,
           dataBits := some 0, status := some "fec_failed",
           fecScheme := some settings.scheme,
           fecStatus := some "header_not_recovered", truncatedBits := none,
           fecMetrics :=
             some (codecDecode codec (fecRegion settings bitArray preLen)).2 }⟩
  else
    ⟨bitsToBytes
        (((codecDecode codec (fecRegion settings bitArray preLen)).1.drop
            32).take
          (min (bigEndianValue ((codecDecode codec
              (fecRegion settings bitArray preLen)).1.take 32))
            ((codecDecode codec
              (fecRegion settings bitArray preLen)).1.drop 32).length)),
     { bitCount := bitArray.length, preambleBits := preLen,
       bitrate := some bitRate,
       samplesPerBit := some (s.samplesPerBit : ℤ),
       syncScore := some s.score, syncStart := some s.startIndex,
       dataBits := some (min (bigEndianValue ((codecDecode codec
           (fecRegion settings bitArray preLen)).1.take 32))
         ((codecDecode codec
           (fecRegion settings bitArray preLen)).1.drop 32).length),
       status := some "ok", fecScheme := some settings.scheme,
       fecStatus := none,
       truncatedBits :=
         if ((codecDecode codec
             (fecRegion settings bitArray preLen)).1.drop 32).length
             < bigEndianValue ((codecDecode codec
               (fecRegion settings bitArray preLen)).1.take 32) then
           some (bigEndianValue ((codecDecode codec
               (fecRegion settings bitArray preLen)).1.take 32)
             - ((codecDecode codec
               (fecRegion settings bitArray preLen)).1.drop 32).length)
         else none,
       fecMetrics :=
         some (codecDecode codec (fecRegion settings bitArray preLen)).2 }⟩

/-- `decode(waveform, params)`.  The branch structure follows the source
line by line: empty input returns metrics with no `status` key; a missing
or low-scoring synchronization reports `preamble_not_found`; too few
demodulated bits report `insufficient_data`; the no-FEC path packs all the
data bits with status `ok`; the FEC path is `decodeFecTail`. -/
def decodeModel (p : RealPrims) (cfg : ModemConfig) (waveform : List ℚ) :
    Except String DecodeOutput :=
  match buildCodecFromRaw cfg.fec with
  | .error e => .error e
  | .ok codec =>
    if waveform.length = 0 then
      .ok ⟨[], { bitCount := 0, preambleBits := cfg.preambleBits.length,
                 bitrate := none, samplesPerBit := none, syncScore := none,
                 syncStart := none, dataBits := none, status := none,
                 fecScheme := none, fecStatus := none, truncatedBits := none,
                 fecMetrics := none }⟩
    else
      match synchronize p (applyAgc p waveform) cfg.sampleRate
          cfg.bitRate cfg.freq0 cfg.freq1 cfg.preambleBits with
      | none =>
        .ok ⟨[], { bitCount := 0, preambleBits := cfg.preambleBits.length,
                   bitrate := some cfg.bitRate,
                   samplesPerBit :=
                     some (decodeSamplesPerBitMetric cfg.sampleRate
                       cfg.bitRate),
                   syncScore := some 0, syncStart := none, dataBits := none,
                   status := some "preamble_not_found", fecScheme := none,
                   fecStatus := none, truncatedBits := none,
                   fecMetrics := none }⟩
      | some s =>
        if s.score < 3/10 then
          .ok ⟨[], { bitCount := 0,
                     preambleBits := cfg.preambleBits.length,
                     bitrate := some cfg.bitRate,
                     samplesPerBit :=
                       some (decodeSamplesPerBitMetric cfg.sampleRate
                         cfg.bitRate),
                     syncScore := some s.score, syncStart := none,
                     dataBits := none, status := some "preamble_not_found",
                     fecScheme := none, fecStatus := none,
                     truncatedBits := none, fecMetrics := none }⟩
        else
          if (decodedBitArray p cfg waveform s).length
              ≤ cfg.preambleBits.length then
            .ok ⟨[], { bitCount := (decodedBitArray p cfg waveform s).length,
                       preambleBits := cfg.preambleBits.length,
                       bitrate := some cfg.bitRate,
                       samplesPerBit := some (s.samplesPerBit : ℤ),
                       syncScore := some s.score,
                       syncStart := some s.startIndex, dataBits := some 0,
                       status := some "insufficient_data", fecScheme := none,
                       fecStatus := none, truncatedBits := none,
                       fecMetrics := none }⟩
          else if (parseFecSettings cfg.fec).scheme = "none" then
            .ok ⟨bitsToBytes ((decodedBitArray p cfg waveform s).drop
                  cfg.preambleBits.length),
                 { bitCount := (decodedBitArray p cfg waveform s).length,
                   preambleBits := cfg.preambleBits.length,
                   bitrate := some cfg.bitRate,
                   samplesPerBit := some (s.samplesPerBit : ℤ),
                   syncScore := some s.score, syncStart := some s.startIndex,
                   dataBits := some ((decodedBitArray p cfg waveform s).length
                     - cfg.preambleBits.length),
                   status := some "ok", fecScheme := none, fecStatus := none,
                   truncatedBits := none, fecMetrics := none }⟩
          else
            .ok (decodeFecTail codec (parseFecSettings cfg.fec)
              (decodedBitArray p cfg waveform s) cfg.preambleBits.length
              cfg.bitRate s)

/-- A concrete configuration for witness instantiations: no FEC, the
default preamble `10101010`, and a nominal 8 samples per bit. -/
def witnessConfig : ModemConfig :=
  { sampleRate := 48, bitRate := 6, freq0 := 1, freq1 := 2, amplitude := 1,
    preambleBits := "10101010", fec := ⟨none, none, none⟩ }

/-! ## Theorems: interleaver and samples per bit -/

theorem mem_interleaveIndices {n d j : Nat} :
    j ∈ interleaveIndices n d ↔ j < n := by
  rw [interleaveIndices]
  by_cases hcond : max d 1 = 1 ∨ n ≤ 1
  · rw [if_pos hcond, List.mem_range]
  · rw [if_neg hcond]
    push_neg at hcond
    obtain ⟨hd1, hn1⟩ := hcond
    set D := max d 1 with hD
    have hD0 : 0 < D := by omega
    simp only [List.mem_flatMap, List.mem_filter, List.mem_map,
      List.mem_range, decide_eq_true_eq]
    constructor
    · rintro ⟨c, hc, ⟨⟨r, hr, rfl⟩, hlt⟩⟩
      exact hlt
    · intro hj
      have hjdm := Nat.div_add_mod j D
      have hjm : j % D < D := Nat.mod_lt _ hD0
      have hc2 : j / D * D = D * (j / D) := Nat.mul_comm _ _
      have hrow : j / D < (n + D - 1) / D := by
        have h1 := Nat.div_add_mod (n + D - 1) D
        have h2 : (n + D - 1) % D < D := Nat.mod_lt _ hD0
        have hc1 : (n + D - 1) / D * D = D * ((n + D - 1) / D) :=
          Nat.mul_comm _ _
        rw [Nat.div_lt_iff_lt_mul hD0]
        omega
      exact ⟨j % D, hjm, ⟨⟨j / D, hrow, by omega⟩, hj⟩⟩

theorem nodup_interleaveIndices (n d : Nat) :
    (interleaveIndices n d).Nodup := by
  rw [interleaveIndices]
  by_cases hcond : max d 1 = 1 ∨ n ≤ 1
  · rw [if_pos hcond]; exact List.nodup_range n
  · rw [if_neg hcond]
    push_neg at hcond
    obtain ⟨hd1, hn1⟩ := hcond
    set D := max d 1 with hD
    have hD0 : 0 < D := by omega
    rw [List.nodup_flatMap]
    constructor
    · intro c _
      refine List.Nodup.filter _ (List.Nodup.map ?_ (List.nodup_range _))
      intro a b hab
      have hab2 : a * D + c = b * D + c := hab
      have : a * D = b * D := by omega
      exact Nat.eq_of_mul_eq_mul_right hD0 this
    · rw [List.pairwise_iff_getElem]
      intro i k hi hk hik
      simp only [List.length_range] at hi hk
      simp only [Function.onFun, List.getElem_range]
      intro x hxi hxk
      simp only [List.mem_filter, List.mem_map, List.mem_range,
        decide_eq_true_eq] at hxi hxk
      obtain ⟨⟨r1, hr1, h1⟩, _⟩ := hxi
      obtain ⟨⟨r2, hr2, h2⟩, _⟩ := hxk
      have e1 : x % D = i := by
        rw [← h1, Nat.mul_comm r1 D, Nat.mul_add_mod, Nat.mod_eq_of_lt hi]
      have e2 : x % D = k := by
        rw [← h2, Nat.mul_comm r2 D, Nat.mul_add_mod, Nat.mod_eq_of_lt hk]
      omega

theorem interleaveIndices_perm (n d : Nat) :
    (interleaveIndices n d).Perm (List.range n) := by
  rw [List.perm_ext_iff_of_nodup (nodup_interleaveIndices n d)
    (List.nodup_range n)]
  intro a
  rw [mem_interleaveIndices, List.mem_range]

theorem getD_map_of_lt [Inhabited β] (f : α → β) (l : List α) (k : Nat)
    (h : k < l.length) :
    (l.map f).getD k default = f l[k] := by
  rw [List.getD_eq_getElem _ _ (by simpa using h), List.getElem_map]

theorem length_interleaveIndices (n d : Nat) :
    (interleaveIndices n d).length = n := by
  have := (interleaveIndices_perm n d).length_eq
  simpa using this

/-- C2: for every bit sequence and every depth `d >= 1` (lengths not
divisible by `d` and the empty sequence included), deinterleaving the
interleaved sequence restores the original, and for `d <= 1` or empty
input interleaving is the identity. -/
theorem interleave_deinterleave_roundtrip :
    (∀ (x : List Bool) (d : Nat), 1 ≤ d →
      deinterleaveBits (interleaveBits x d) d = x)
    ∧ (∀ (x : List Bool) (d : Nat), d ≤ 1 → interleaveBits x d = x)
    ∧ (∀ d : Nat, interleaveBits ([] : List Bool) d = []) := by
  refine ⟨?_, ?_, ?_⟩
  · intro x d _
    by_cases hguard : d ≤ 1 ∨ x.length = 0
    · rw [interleaveBits, if_pos hguard, deinterleaveBits, if_pos hguard]
    · push_neg at hguard
      obtain ⟨hd, hx⟩ := hguard
      have hordlen : (interleaveIndices x.length d).length = x.length :=
        length_interleaveIndices x.length d
      have hinterleave : interleaveBits x d =
          (interleaveIndices x.length d).map fun i => x.getD i default := by
        rw [interleaveBits, if_neg (by push_neg; exact ⟨hd, hx⟩)]
      have hleny : (interleaveBits x d).length = x.length := by
        rw [hinterleave, List.length_map, hordlen]
      rw [deinterleaveBits,
        if_neg (by push_neg; exact ⟨hd, by omega⟩)]
      rw [hleny]
      apply List.ext_getElem
      · rw [List.length_map, List.length_range, hordlen]
      · intro j h1 h2
        rw [List.getElem_map, List.getElem_range]
        have hjmem : j ∈ interleaveIndices x.length d :=
          mem_interleaveIndices.mpr h2
        have hidx : (interleaveIndices x.length d).indexOf j
            < (interleaveIndices x.length d).length :=
          List.indexOf_lt_length.mpr hjmem
        rw [hinterleave, getD_map_of_lt _ _ _ hidx,
          List.getElem_indexOf hidx, List.getD_eq_getElem _ _ h2]
  · intro x d hd
    rw [interleaveBits, if_pos (Or.inl hd)]
  · intro d
    by_cases hd : d ≤ 1
    · rw [interleaveBits, if_pos (Or.inl hd)]
    · rw [interleaveBits, if_pos (Or.inr (by simp))]

/-- Witness for C2 at a concrete input, the seven-bit vector of the
repository test with depth 3. -/
theorem interleave_deinterleave_roundtrip_witness :
    deinterleaveBits
      (interleaveBits [false, true, true, false, true, false, false] 3) 3
      = [false, true, true, false, true, false, false] :=
  interleave_deinterleave_roundtrip.1
    [false, true, true, false, true, false, false] 3 (by decide)

/-! ## Theorems: FEC codecs and configuration -/

/-- C3 (code bug): on the bit stream of the repository's own unit test
(`test_repetition_codec_corrects_single_symbol_error`: encode `[1,1,0,1]`
with factor 3, then flip bit 3), the `uint8` wraparound in
`np.abs(trimmed - majority[:, None])` makes `corrected_bits` 255, while the
claimed Hamming-distance semantics — asserted by that test — give 1.  The
majority data bits themselves are recovered correctly. -/
theorem repetition_corrected_bits_uint8_wraparound :
    repetitionDecode 3 [1, 1, 1, 0, 1, 1, 0, 0, 0, 1, 1, 1]
      = ([1, 1, 0, 1],
         { correctedBits := 255, uncorrectableBlocks := 0,
           discardedSymbols := some 0 })
    ∧ repetitionSpecCorrectedBits 3 [1, 1, 1, 0, 1, 1, 0, 0, 0, 1, 1, 1]
      = 1 := by
  constructor <;> rfl

/-- C4: flipping any single bit of the Hamming(7,4) codeword of any 4-bit
data group is corrected exactly (data bits recovered from positions
2, 4, 5, 6, `corrected_bits` incremented by exactly 1, no uncorrectable
blocks); moreover trailing bits that do not form a whole 7-bit codeword are
discarded and counted, the decoded data depending only on the trimmed
prefix. -/
theorem hamming74_single_error_correction :
    (∀ (d0 d1 d2 d3 : Fin 2) (p : Fin 7),
      hammingDecode
        (flipBitAt (hammingEncode [d0.val, d1.val, d2.val, d3.val]) p.val)
        = ([d0.val, d1.val, d2.val, d3.val],
           { correctedBits := 1, uncorrectableBlocks := 0,
             discardedSymbols := some 0 }))
    ∧ (∀ bits : List Nat,
        (hammingDecode bits).2.discardedSymbols = some (bits.length % 7)
        ∧ (hammingDecode bits).1
          = (hammingDecode (bits.take (bits.length / 7 * 7))).1) := by
  constructor
  · decide
  · intro bits
    by_cases h : bits.length = 0
    · have hb : bits = [] := List.eq_nil_of_length_eq_zero h
      subst hb
      exact ⟨rfl, rfl⟩
    · constructor
      · rw [hammingDecode, if_neg h]
        dsimp only
        congr 1
        omega
      · rw [hammingDecode, if_neg h]
        dsimp only
        by_cases h0 : bits.length / 7 * 7 = 0
        · rw [h0]
          simp [chunksOf, chunksOfAux, hammingDecode]
        · have husable_le : bits.length / 7 * 7 ≤ bits.length :=
            Nat.div_mul_le_self _ _
          have ht : (bits.take (bits.length / 7 * 7)).length
              = bits.length / 7 * 7 := by
            rw [List.length_take]; omega
          rw [hammingDecode, if_neg (by rw [ht]; exact h0)]
          dsimp only
          rw [ht]
          have hu : bits.length / 7 * 7 / 7 * 7 = bits.length / 7 * 7 := by
            rw [Nat.mul_div_cancel _ (by norm_num : (0 : Nat) < 7)]
          rw [hu, List.take_take, min_self]

/-- C5 (counterexample): at `sample_rate = 48000`, `bit_rate = 32000` the
ratio is 1.5; `encode` computes `max(int(1.5), 1) = 1` while the claimed
`round`-based formula gives 2 (which is also what `decode` reports). -/
theorem samples_per_bit_round_counterexample :
    encodeSamplesPerBit 48000 32000 = 1
    ∧ decodeSamplesPerBitMetric 48000 32000 = 2
    ∧ encodeSamplesPerBit 48000 32000
      ≠ max (pyRound ((48000 : ℚ) / 32000)) 1 := by
  have h1 : encodeSamplesPerBit 48000 32000 = 1 := by
    rw [encodeSamplesPerBit, pyInt]
    norm_num
  have h2 : decodeSamplesPerBitMetric 48000 32000 = 2 := by
    rw [decodeSamplesPerBitMetric, pyRound]
    norm_num [Int.fract]
  refine ⟨h1, h2, ?_⟩
  rw [h1]
  rw [decodeSamplesPerBitMetric] at h2
  rw [h2]
  decide

/-- C5 (amended): `encode` computes `max(int(sample_rate / bit_rate), 1)`,
i.e. the floor of the positive ratio clamped to at least 1, while the
`samples_per_bit` entry of the decode metrics is
`round(sample_rate / bit_rate)` (banker's rounding); the two agree whenever
the fractional part of the ratio is below one half. -/
theorem samples_per_bit_encode_truncates (sr br : ℚ)
    (hsr : 0 < sr) (hbr : 0 < br) :
    encodeSamplesPerBit sr br = max ⌊sr / br⌋ 1
    ∧ decodeSamplesPerBitMetric sr br = pyRound (sr / br)
    ∧ (Int.fract (sr / br) < 1/2 →
        encodeSamplesPerBit sr br = max (decodeSamplesPerBitMetric sr br) 1) := by
  have hq : 0 ≤ sr / br := le_of_lt (div_pos hsr hbr)
  have hint : pyInt (sr / br) = ⌊sr / br⌋ := by
    rw [pyInt, if_neg (not_lt.mpr hq)]
  refine ⟨by rw [encodeSamplesPerBit, hint], rfl, ?_⟩
  intro hfr
  have hne : Int.fract (sr / br) ≠ 1/2 := by
    intro hcontra
    rw [hcontra] at hfr
    norm_num at hfr
  have hfl := Int.floor_le (sr / br)
  have hfr0 : 0 ≤ Int.fract (sr / br) := Int.fract_nonneg _
  have hadd := Int.floor_add_fract (sr / br)
  have hround : pyRound (sr / br) = ⌊sr / br⌋ := by
    rw [pyRound, if_neg hne, round_eq]
    rw [Int.floor_eq_iff]
    exact ⟨by linarith, by linarith⟩
  rw [encodeSamplesPerBit, hint, decodeSamplesPerBitMetric, hround]

/-- Witness for C5 (amended) at `sample_rate = 48000`, `bit_rate = 1200`,
where the ratio is the integer 40. -/
theorem samples_per_bit_encode_truncates_witness :
    encodeSamplesPerBit 48000 1200
      = max (decodeSamplesPerBitMetric 48000 1200) 1 :=
  (samples_per_bit_encode_truncates 48000 1200 (by norm_num)
    (by norm_num)).2.2 (by norm_num [Int.fract])

/-- C6 (counterexample): a repetition factor of 0 — which is both even and
below 1, hence should be rejected — is silently replaced by the default 3
by `_parse_fec_settings` (`int(config.get("repetition_factor", 3) or 3)`),
so codec construction succeeds; and a non-positive sample rate is not
validated anywhere at construction: `encode` simply clamps the resulting
samples-per-bit to 1. -/
theorem fec_config_zero_factor_counterexample :
    buildCodecFromRaw ⟨some "repetition", some 0, none⟩
      = .ok (.repetition 3)
    ∧ encodeSamplesPerBit 0 5 = 1 := by
  refine ⟨rfl, ?_⟩
  rw [encodeSamplesPerBit, pyInt]
  norm_num

/-- C6 (amended): an unknown scheme name always fails construction, and for
`scheme = "repetition"` a present nonzero factor fails construction exactly
when it is below 1 or even; but a factor of 0 (or an absent factor) is
silently replaced by the default 3, and sample/bit rates are not validated
at construction. -/
theorem fec_config_validation_amended :
    (∀ v : Int, v ≠ 0 →
      ((buildCodecFromRaw ⟨some "repetition", some v, none⟩).isOk = false
        ↔ (v < 1 ∨ v % 2 = 0)))
    ∧ buildCodecFromRaw ⟨some "repetition", some 0, none⟩
      = .ok (.repetition 3)
    ∧ buildCodecFromRaw ⟨some "repetition", none, none⟩
      = .ok (.repetition 3)
    ∧ (∀ s : String, pyLower s ≠ "none" → pyLower s ≠ "repetition" →
        pyLower s ≠ "hamming74" →
        (buildCodec s 3).isOk = false)
    ∧ encodeSamplesPerBit 0 5 = 1 := by
  refine ⟨?_, rfl, rfl, ?_,
    by rw [encodeSamplesPerBit, pyInt]; norm_num⟩
  · intro v hv
    have hparse : (parseFecSettings ⟨some "repetition", some v, none⟩).repetitionFactor
        = v := by
      simp only [parseFecSettings, if_neg hv]
    have hscheme : (parseFecSettings ⟨some "repetition", some v, none⟩).scheme
        = "repetition" := rfl
    rw [buildCodecFromRaw, hparse, hscheme, buildCodec]
    rw [if_neg (by decide : ¬(pyLower "repetition" = "none")),
      if_pos (by decide : pyLower "repetition" = "repetition")]
    by_cases h1 : v < 1
    · rw [if_pos h1]
      simp [Except.isOk, Except.toBool, h1]
    · rw [if_neg h1]
      by_cases h2 : v % 2 = 0
      · rw [if_pos h2]
        simp [Except.isOk, Except.toBool, h2]
      · rw [if_neg h2]
        simp [Except.isOk, Except.toBool, h1, h2]
  · intro s h1 h2 h3
    rw [buildCodec, if_neg h1, if_neg h2, if_neg h3]
    simp [Except.isOk, Except.toBool]

/-- Witness for C6 (amended): an even factor of 2 is rejected. -/
theorem fec_config_validation_amended_witness :
    (buildCodecFromRaw ⟨some "repetition", some 2, none⟩).isOk = false :=
  (fec_config_validation_amended.1 2 (by decide)).mpr (Or.inr (by decide))

/-! ## Theorems: the demodulator on silence and short captures -/

theorem applyAgc_length (p : RealPrims) (w : List ℚ) :
    (applyAgc p w).length = w.length := by
  rw [applyAgc]
  split_ifs <;> simp

theorem applyAgc_replicate_zero (p : RealPrims) (L : Nat) :
    applyAgc p (List.replicate L (0 : ℚ)) = List.replicate L 0 := by
  rw [applyAgc]
  split_ifs
  · rfl
  · rw [List.map_replicate, zero_mul]

theorem listSlice_replicate (L s n : Nat) :
    listSlice (List.replicate L (0 : ℚ)) s n
      = List.replicate (min n (L - s)) 0 := by
  rw [listSlice, List.drop_replicate, List.take_replicate]

theorem zipWith_mul_replicate_zero (n : Nat) (ys : List ℚ) :
    List.zipWith (· * ·) (List.replicate n (0 : ℚ)) ys
      = List.replicate (min n ys.length) 0 := by
  induction n generalizing ys with
  | zero => simp
  | succ m ih =>
    cases ys with
    | nil => simp
    | cons y ys =>
      simp only [List.replicate_succ, List.zipWith_cons_cons, zero_mul,
        List.length_cons, ih, Nat.succ_min_succ]

theorem dotQ_replicate_zero_left (n : Nat) (ys : List ℚ) :
    dotQ (List.replicate n 0) ys = 0 := by
  rw [dotQ, zipWith_mul_replicate_zero, List.sum_replicate, smul_zero]

theorem sumSq_all_zero (xs : List ℚ) (h : ∀ x ∈ xs, x = 0) :
    sumSq xs = 0 := by
  induction xs with
  | nil => rfl
  | cons x rest ih =>
    have hx : x = 0 := h x (List.mem_cons_self x rest)
    have hr : sumSq rest = 0 := ih fun y hy => h y (List.mem_cons_of_mem _ hy)
    rw [sumSq, dotQ] at hr ⊢
    rw [List.zipWith_cons_cons, List.sum_cons, hx, hr]
    norm_num

theorem symbolDifference_replicate_zero (p : RealPrims) (k : SymbolKernel)
    (m : Nat) :
    symbolDifference p (List.replicate m (0 : ℚ)) k = 0 := by
  rw [symbolDifference]
  split_ifs with h
  · rfl
  · rw [zipWith_mul_replicate_zero]
    simp only [dotQ_replicate_zero_left, complexAbsQ]
    norm_num

theorem mem_symbolDifferencesAux_replicate_zero (p : RealPrims)
    (k : SymbolKernel) (L : Nat) :
    ∀ (count start : Nat) (x : ℚ),
      x ∈ symbolDifferencesAux p (List.replicate L 0) k start count →
      x = 0 := by
  intro count
  induction count with
  | zero => intro start x hx; simp [symbolDifferencesAux] at hx
  | succ m ih =>
    intro start x hx
    rw [symbolDifferencesAux] at hx
    split_ifs at hx with h
    · simp at hx
    · rcases List.mem_cons.mp hx with hx | hx
      · rw [hx, listSlice_replicate, symbolDifference_replicate_zero]
      · exact ih _ x hx

theorem correlate_all_zero (p : RealPrims) (observed reference : List ℚ)
    (norm : ℚ) (hobs : ∀ x ∈ observed, x = 0) (hsqrt0 : p.sqrt 0 = 0) :
    correlate p observed reference norm = none := by
  rw [correlate, sumSq_all_zero observed hobs, hsqrt0,
    if_pos (by norm_num)]

theorem scanLoop_replicate_zero (p : RealPrims) (k : SymbolKernel)
    (reference : List ℚ) (norm : ℚ) (spb L : Nat)
    (hsqrt0 : p.sqrt 0 = 0) :
    ∀ (offsets : List Nat) (best : Option SymbolSyncResult),
      scanLoop p (List.replicate L 0) k reference norm spb offsets best
        = best := by
  intro offsets
  induction offsets with
  | nil => intro best; rfl
  | cons s rest ih =>
    intro best
    rw [scanLoop]
    split_ifs with h
    · rfl
    · simp only [symbolDifferences]
      rw [correlate_all_zero p _ reference norm
        (mem_symbolDifferencesAux_replicate_zero p k L reference.length s)
        hsqrt0]
      exact ih best

theorem scanForPreamble_replicate_zero (p : RealPrims) (k : SymbolKernel)
    (reference : List ℚ) (norm : ℚ) (spb L startMin startMax step : Nat)
    (hsqrt0 : p.sqrt 0 = 0) :
    scanForPreamble p (List.replicate L 0) k reference norm spb
      startMin startMax step = none := by
  rw [scanForPreamble]
  split_ifs with h
  · rfl
  · exact scanLoop_replicate_zero p k reference norm spb L hsqrt0 _ none

theorem perCandidate_replicate_zero (p : RealPrims) (L : Nat)
    (sampleRate freq0 freq1 : ℚ) (reference : List ℚ) (norm : ℚ)
    (spb : Nat) (hsqrt0 : p.sqrt 0 = 0) :
    perCandidate p (List.replicate L 0) sampleRate freq0 freq1 reference
      norm spb = none := by
  rw [perCandidate]
  split_ifs with h
  · rfl
  · rw [scanForPreamble_replicate_zero p _ reference norm spb L _ _ _ hsqrt0]

theorem foldl_skipNone_of_none (g : Nat → Option SymbolSyncResult)
    (l : List Nat) (hg : ∀ c ∈ l, g c = none) :
    ∀ b, l.foldl (fun best c => skipNoneUpdate (g c) best) b = b := by
  induction l with
  | nil => intro b; rfl
  | cons c rest ih =>
    intro b
    rw [List.foldl_cons]
    have hc : g c = none := hg c (List.mem_cons_self c rest)
    rw [hc]
    exact ih (fun d hd => hg d (List.mem_cons_of_mem _ hd)) b

theorem synchronize_replicate_zero (p : RealPrims) (L : Nat)
    (sampleRate bitRate freq0 freq1 : ℚ) (preambleBits : String)
    (hsqrt0 : p.sqrt 0 = 0) :
    synchronize p (List.replicate L 0) sampleRate bitRate freq0 freq1
      preambleBits = none := by
  rw [synchronize]
  split_ifs with h
  · rfl
  · apply foldl_skipNone_of_none
    intro c _
    exact perCandidate_replicate_zero p L sampleRate freq0 freq1 _ _ c
      hsqrt0
  · apply foldl_skipNone_of_none
    intro c _
    exact perCandidate_replicate_zero p L sampleRate freq0 freq1 _ _ c
      hsqrt0

theorem preambleArray_length (s : String) :
    (preambleArray s).length = s.length := by
  rw [preambleArray, List.length_map]
  rfl

theorem synchronize_short (p : RealPrims) (signal : List ℚ)
    (sampleRate bitRate freq0 freq1 : ℚ) (preambleBits : String)
    (hshort : ∀ c ∈ syncCandidates sampleRate bitRate,
      signal.length < c * preambleBits.length) :
    synchronize p signal sampleRate bitRate freq0 freq1 preambleBits
      = none := by
  rw [synchronize]
  split_ifs with h h2
  · rfl
  all_goals
    apply foldl_skipNone_of_none
    intro c hc
    rw [perCandidate, if_pos]
    rw [List.length_map, preambleArray_length]
    exact hshort c hc

/-- C7: decoding pure silence of any length (the all-zero waveform,
including the empty one) and decoding any waveform shorter than one
preamble's worth of samples (under every candidate samples-per-bit value
the synchronizer would try) return an empty payload and a status that is
not `ok`; the model is a total function into `Except` and returns `.ok`
on these inputs, i.e. the source raises no exception.  The `sqrt 0 = 0`
hypothesis is the one fact about real square roots the silence path uses
(the energy of an all-zero discriminant vector is below the `1e-6` floor,
so `_correlate` returns no score). -/
theorem decode_silence_and_short_buffers_fail_safely :
    (∀ (p : RealPrims) (cfg : ModemConfig) (L : Nat), p.sqrt 0 = 0 →
      ∀ out ∈ (decodeModel p cfg (List.replicate L 0)).toOption,
        out.payload = [] ∧ out.metrics.status ≠ some "ok")
    ∧ (∀ (p : RealPrims) (cfg : ModemConfig) (w : List ℚ),
        (∀ c ∈ syncCandidates cfg.sampleRate cfg.bitRate,
          w.length < c * cfg.preambleBits.length) →
        ∀ out ∈ (decodeModel p cfg w).toOption,
          out.payload = [] ∧ out.metrics.status ≠ some "ok") := by
  constructor
  · intro p cfg L hsqrt0 out hout
    unfold decodeModel at hout
    cases hbc : buildCodecFromRaw cfg.fec with
    | error e =>
      rw [hbc] at hout
      simp [Except.toOption] at hout
    | ok codec =>
      rw [hbc] at hout
      dsimp only at hout
      by_cases hL : L = 0
      · rw [if_pos (by simp [hL])] at hout
        simp only [Except.toOption, Option.mem_def,
          Option.some.injEq] at hout
        subst hout
        exact ⟨rfl, by dsimp only; decide⟩
      · rw [applyAgc_replicate_zero,
          synchronize_replicate_zero p L cfg.sampleRate cfg.bitRate
            cfg.freq0 cfg.freq1 cfg.preambleBits hsqrt0,
          if_neg (by simp [hL])] at hout
        dsimp only at hout
        simp only [Except.toOption, Option.mem_def,
          Option.some.injEq] at hout
        subst hout
        exact ⟨rfl, by dsimp only; decide⟩
  · intro p cfg w hshort out hout
    unfold decodeModel at hout
    cases hbc : buildCodecFromRaw cfg.fec with
    | error e =>
      rw [hbc] at hout
      simp [Except.toOption] at hout
    | ok codec =>
      rw [hbc] at hout
      dsimp only at hout
      by_cases hw : w.length = 0
      · rw [if_pos hw] at hout
        simp only [Except.toOption, Option.mem_def,
          Option.some.injEq] at hout
        subst hout
        exact ⟨rfl, by dsimp only; decide⟩
      · rw [synchronize_short p (applyAgc p w) cfg.sampleRate cfg.bitRate
            cfg.freq0 cfg.freq1 cfg.preambleBits
            (by rw [applyAgc_length]; exact hshort),
          if_neg hw] at hout
        dsimp only at hout
        simp only [Except.toOption, Option.mem_def,
          Option.some.injEq] at hout
        subst hout
        exact ⟨rfl, by dsimp only; decide⟩

theorem syncCandidates_48_6 : syncCandidates 48 6 = [8] := by
  rw [syncCandidates, syncTimingOffsets]
  simp only [List.map_cons, List.map_nil]
  norm_num [pyRound, Int.fract, round_eq]
  decide

/-- Witness for C7: all-zero silence of three samples and a one-sample
nonzero capture, under the witness configuration (preamble `10101010`,
eight nominal samples per bit, so the single candidate samples-per-bit
is 8 and one preamble needs 64 samples). -/
theorem decode_silence_and_short_buffers_fail_safely_witness :
    (∀ out ∈ (decodeModel zeroPrims witnessConfig
        (List.replicate 3 0)).toOption,
      out.payload = [] ∧ out.metrics.status ≠ some "ok")
    ∧ (∀ out ∈ (decodeModel zeroPrims witnessConfig [1]).toOption,
      out.payload = [] ∧ out.metrics.status ≠ some "ok") :=
  ⟨decode_silence_and_short_buffers_fail_safely.1 zeroPrims witnessConfig 3
      rfl,
   decode_silence_and_short_buffers_fail_safely.2 zeroPrims witnessConfig
      [1]
      (by
        intro c hc
        have h : syncCandidates witnessConfig.sampleRate
            witnessConfig.bitRate = [8] := syncCandidates_48_6
        rw [h] at hc
        simp only [List.mem_singleton] at hc
        subst hc
        decide)⟩

theorem mem_toOption {ε α : Type} {e : Except ε α} {a : α} :
    a ∈ e.toOption ↔ e = .ok a := by
  cases e <;> simp [Except.toOption, Option.mem_def, eq_comm]

theorem chunksOf_cons_ne_nil (k : Nat) (hk : k ≠ 0) (a : α) (rest : List α) :
    chunksOf k (a :: rest) ≠ [] := by
  rw [chunksOf, if_neg hk]
  rw [List.length_cons, chunksOfAux]
  exact List.cons_ne_nil _ _

theorem bitsToBytes_ne_nil (bits : List Nat) (h : bits ≠ []) :
    bitsToBytes bits ≠ [] := by
  rw [bitsToBytes, if_neg (by simpa using h)]
  cases hb : bits with
  | nil => exact absurd hb h
  | cons a rest =>
    rw [List.cons_append]
    intro hcontra
    exact chunksOf_cons_ne_nil 8 (by norm_num) a _
      (List.map_eq_nil_iff.mp hcontra)

/-- Exhaustive branch analysis of a successful `decode` call: which status
is reported, and for the no-FEC success branch, what the payload is. -/
theorem decode_ok_cases (p : RealPrims) (cfg : ModemConfig) (w : List ℚ)
    (out : DecodeOutput) (hdec : decodeModel p cfg w = .ok out) :
    (w.length = 0 ∧ out.payload = [] ∧ out.metrics.status = none)
    ∨ (out.payload = [] ∧ out.metrics.status = some "preamble_not_found")
    ∨ (out.payload = [] ∧ out.metrics.status = some "insufficient_data")
    ∨ ((parseFecSettings cfg.fec).scheme = "none"
        ∧ out.metrics.status = some "ok"
        ∧ ∃ s : SymbolSyncResult,
            cfg.preambleBits.length < (decodedBitArray p cfg w s).length
            ∧ out.payload = bitsToBytes
                ((decodedBitArray p cfg w s).drop cfg.preambleBits.length))
    ∨ (out.payload = [] ∧ out.metrics.status = some "fec_failed")
    ∨ (¬(parseFecSettings cfg.fec).scheme = "none"
        ∧ out.metrics.status = some "ok") := by
  unfold decodeModel at hdec
  cases hbc : buildCodecFromRaw cfg.fec with
  | error e =>
    rw [hbc] at hdec
    exact absurd hdec (by simp)
  | ok codec =>
    rw [hbc] at hdec
    dsimp only at hdec
    by_cases hw : w.length = 0
    · rw [if_pos hw] at hdec
      simp only [Except.ok.injEq] at hdec
      subst hdec
      exact Or.inl ⟨hw, rfl, rfl⟩
    · rw [if_neg hw] at hdec
      cases hsy : synchronize p (applyAgc p w) cfg.sampleRate cfg.bitRate
          cfg.freq0 cfg.freq1 cfg.preambleBits with
      | none =>
        rw [hsy] at hdec
        dsimp only at hdec
        simp only [Except.ok.injEq] at hdec
        subst hdec
        exact Or.inr (Or.inl ⟨rfl, rfl⟩)
      | some s =>
        rw [hsy] at hdec
        dsimp only at hdec
        by_cases hsc : s.score < 3/10
        · rw [if_pos hsc] at hdec
          simp only [Except.ok.injEq] at hdec
          subst hdec
          exact Or.inr (Or.inl ⟨rfl, rfl⟩)
        · rw [if_neg hsc] at hdec
          by_cases hlen : (decodedBitArray p cfg w s).length
              ≤ cfg.preambleBits.length
          · rw [if_pos hlen] at hdec
            simp only [Except.ok.injEq] at hdec
            subst hdec
            exact Or.inr (Or.inr (Or.inl ⟨rfl, rfl⟩))
          · rw [if_neg hlen] at hdec
            by_cases hsch : (parseFecSettings cfg.fec).scheme = "none"
            · rw [if_pos hsch] at hdec
              simp only [Except.ok.injEq] at hdec
              subst hdec
              exact Or.inr (Or.inr (Or.inr (Or.inl
                ⟨hsch, rfl, s, by omega, rfl⟩)))
            · rw [if_neg hsch] at hdec
              simp only [Except.ok.injEq] at hdec
              rw [decodeFecTail] at hdec
              by_cases hhdr : (codecDecode codec
                  (fecRegion (parseFecSettings cfg.fec)
                    (decodedBitArray p cfg w s)
                    cfg.preambleBits.length)).1.length < 32
              · rw [if_pos hhdr] at hdec
                subst hdec
                exact Or.inr (Or.inr (Or.inr (Or.inr (Or.inl ⟨rfl, rfl⟩))))
              · rw [if_neg hhdr] at hdec
                subst hdec
                exact Or.inr (Or.inr (Or.inr (Or.inr (Or.inr
                  ⟨hsch, rfl⟩))))

/-- C8 (counterexample): decoding the empty waveform returns metrics with
no `status` key at all — the early return at `decode` lines 123-124 only
sets `bit_count` and `preamble_bits`.  The empty-input path never
evaluates a numeric primitive, so the all-zero instantiation observes
exactly the source behaviour. -/
theorem decode_empty_waveform_has_no_status :
    (decodeModel zeroPrims witnessConfig []).map
      (fun out => out.metrics.status) = .ok none := rfl

/-- C8 (amended): for every nonempty waveform and constructible codec,
the metrics of a completed decode carry a `status` key whose value is one
of the five enumerated strings (the top-level status in fact only takes
the first four; `header_not_recovered` appears as the nested FEC status);
the empty waveform returns metrics without a `status` key. -/
theorem decode_status_always_enumerated (p : RealPrims)
    (cfg : ModemConfig) (w : List ℚ) (hw : w ≠ []) :
    ∀ out ∈ (decodeModel p cfg w).toOption,
      out.metrics.status = some "ok"
      ∨ out.metrics.status = some "preamble_not_found"
      ∨ out.metrics.status = some "insufficient_data"
      ∨ out.metrics.status = some "header_not_recovered"
      ∨ out.metrics.status = some "fec_failed" := by
  intro out hout
  rcases decode_ok_cases p cfg w out (mem_toOption.mp hout) with
    ⟨hlen, _, _⟩ | ⟨_, hst⟩ | ⟨_, hst⟩ | ⟨_, hst, _⟩ | ⟨_, hst⟩ | ⟨_, hst⟩
  · exact absurd (List.length_eq_zero.mp hlen) hw
  · exact Or.inr (Or.inl hst)
  · exact Or.inr (Or.inr (Or.inl hst))
  · exact Or.inl hst
  · exact Or.inr (Or.inr (Or.inr (Or.inr hst)))
  · exact Or.inl hst

/-- Witness for C8 (amended): a one-sample and a two-sample nonzero
capture under the witness configuration. -/
theorem decode_status_always_enumerated_witness :
    (∀ out ∈ (decodeModel zeroPrims witnessConfig [1]).toOption,
      out.metrics.status = some "ok"
      ∨ out.metrics.status = some "preamble_not_found"
      ∨ out.metrics.status = some "insufficient_data"
      ∨ out.metrics.status = some "header_not_recovered"
      ∨ out.metrics.status = some "fec_failed")
    ∧ (∀ out ∈ (decodeModel zeroPrims witnessConfig [0, 1]).toOption,
      out.metrics.status = some "ok"
      ∨ out.metrics.status = some "preamble_not_found"
      ∨ out.metrics.status = some "insufficient_data"
      ∨ out.metrics.status = some "header_not_recovered"
      ∨ out.metrics.status = some "fec_failed") :=
  ⟨decode_status_always_enumerated zeroPrims witnessConfig [1] (by simp),
   decode_status_always_enumerated zeroPrims witnessConfig [0, 1]
     (by simp)⟩

theorem decode_no_fec_ok_payload_ne_nil (p : RealPrims)
    (cfg : ModemConfig) (w : List ℚ)
    (hscheme : (parseFecSettings cfg.fec).scheme = "none") :
    ∀ out ∈ (decodeModel p cfg w).toOption,
      out.metrics.status = some "ok" → out.payload ≠ [] := by
  intro out hout hok
  rcases decode_ok_cases p cfg w out (mem_toOption.mp hout) with
    ⟨_, _, hst⟩ | ⟨_, hst⟩ | ⟨_, hst⟩ | ⟨_, _, s, hslen, hpay⟩
    | ⟨_, hst⟩ | ⟨hsch, _⟩
  · rw [hok] at hst; exact absurd hst (by decide)
  · rw [hok] at hst; exact absurd hst (by decide)
  · rw [hok] at hst; exact absurd hst (by decide)
  · rw [hpay]
    apply bitsToBytes_ne_nil
    rw [ne_eq, List.drop_eq_nil_iff, not_le]
    exact hslen
  · rw [hok] at hst; exact absurd hst (by decide)
  · exact absurd hscheme hsch

/-- C1 (code bug): under the no-FEC scheme a decode that reports
`status = "ok"` always carries a nonempty payload, because the guard
`bit_array.size <= preamble_len` routes every frame with zero data bits to
`insufficient_data` (or the synchronizer fails with
`preamble_not_found`).  Hence the claimed ideal-channel round trip cannot
hold for the empty payload with `scheme = "none"`: decoding the encoded
empty payload — whose waveform is just the modulated preamble, an
instance of the universally quantified first conjunct — can never return
`status = "ok"` together with the original (empty) payload.  The second
conjunct states this directly for the encoded empty payload. -/
theorem no_fec_ok_requires_nonempty_payload :
    (∀ (p : RealPrims) (cfg : ModemConfig) (w : List ℚ),
      (parseFecSettings cfg.fec).scheme = "none" →
      ∀ out ∈ (decodeModel p cfg w).toOption,
        out.metrics.status = some "ok" → out.payload ≠ [])
    ∧ (∀ (p : RealPrims) (cfg : ModemConfig),
      (parseFecSettings cfg.fec).scheme = "none" →
      ∀ wf ∈ (encodeModel p cfg []).toOption,
      ∀ out ∈ (decodeModel p cfg wf).toOption,
        ¬(out.payload = [] ∧ out.metrics.status = some "ok")) := by
  refine ⟨decode_no_fec_ok_payload_ne_nil, ?_⟩
  intro p cfg hscheme wf _ out hout hcontra
  exact (decode_no_fec_ok_payload_ne_nil p cfg wf hscheme out hout
    hcontra.2) hcontra.1

/-- Witness for C1: the witness configuration (scheme `"none"`) with the
empty waveform and with the very waveform `encode` produces for the empty
payload. -/
theorem no_fec_ok_requires_nonempty_payload_witness :
    (∀ out ∈ (decodeModel zeroPrims witnessConfig []).toOption,
      out.metrics.status = some "ok" → out.payload ≠ [])
    ∧ (∀ wf ∈ (encodeModel zeroPrims witnessConfig []).toOption,
      ∀ out ∈ (decodeModel zeroPrims witnessConfig wf).toOption,
        ¬(out.payload = [] ∧ out.metrics.status = some "ok")) :=
  ⟨no_fec_ok_requires_nonempty_payload.1 zeroPrims witnessConfig [] rfl,
   no_fec_ok_requires_nonempty_payload.2 zeroPrims witnessConfig rfl⟩

/-! ## Theorems: deterministic tie-breaking of the synchronizer -/

theorem foldl_updateBest_ne_none (l : List SymbolSyncResult)
    (b : SymbolSyncResult) :
    l.foldl updateBest (some b) ≠ none := by
  induction l generalizing b with
  | nil => exact Option.some_ne_none b
  | cons c rest ih =>
    rw [List.foldl_cons, updateBest]
    split_ifs
    · exact ih c
    · exact ih b

theorem foldl_updateBest_spec (l : List SymbolSyncResult) :
    ∀ (b r : SymbolSyncResult), l.foldl updateBest (some b) = some r →
      (r = b ∧ ∀ j (hj : j < l.length), (l.get ⟨j, hj⟩).score ≤ b.score)
      ∨ (∃ i, ∃ hi : i < l.length, l.get ⟨i, hi⟩ = r
          ∧ b.score < r.score
          ∧ (∀ j (hj : j < l.length), j < i →
              (l.get ⟨j, hj⟩).score < r.score)
          ∧ ∀ j (hj : j < l.length), (l.get ⟨j, hj⟩).score ≤ r.score) := by
  induction l with
  | nil =>
    intro b r hfold
    simp only [List.foldl_nil, Option.some.injEq] at hfold
    exact Or.inl ⟨hfold.symm, fun j hj => absurd hj (Nat.not_lt_zero j)⟩
  | cons c rest ih =>
    intro b r hfold
    rw [List.foldl_cons, updateBest] at hfold
    by_cases hc : c.score > b.score
    · rw [if_pos hc] at hfold
      rcases ih c r hfold with ⟨rfl, hall⟩ | ⟨i, hi, hget, hbr, hearlier, hall⟩
      · refine Or.inr ⟨0, Nat.succ_pos _, rfl, hc, ?_, ?_⟩
        · intro j hj hj0
          exact absurd hj0 (Nat.not_lt_zero j)
        · intro j hj
          cases j with
          | zero => exact le_refl _
          | succ m =>
            rw [List.get_cons_succ]
            exact hall m (Nat.lt_of_succ_lt_succ hj)
      · refine Or.inr ⟨i + 1, Nat.succ_lt_succ hi, ?_, lt_trans hc hbr,
          ?_, ?_⟩
        · rw [List.get_cons_succ]
          exact hget
        · intro j hj hji
          cases j with
          | zero => exact hbr
          | succ m =>
            rw [List.get_cons_succ]
            exact hearlier m (Nat.lt_of_succ_lt_succ hj)
              (Nat.lt_of_succ_lt_succ hji)
        · intro j hj
          cases j with
          | zero => exact le_of_lt hbr
          | succ m =>
            rw [List.get_cons_succ]
            exact hall m (Nat.lt_of_succ_lt_succ hj)
    · rw [if_neg hc] at hfold
      rcases ih b r hfold with ⟨rfl, hall⟩ | ⟨i, hi, hget, hbr, hearlier, hall⟩
      · refine Or.inl ⟨rfl, ?_⟩
        intro j hj
        cases j with
        | zero => exact le_of_not_lt hc
        | succ m =>
          rw [List.get_cons_succ]
          exact hall m (Nat.lt_of_succ_lt_succ hj)
      · refine Or.inr ⟨i + 1, Nat.succ_lt_succ hi, ?_, hbr, ?_, ?_⟩
        · rw [List.get_cons_succ]
          exact hget
        · intro j hj hji
          cases j with
          | zero => exact lt_of_le_of_lt (le_of_not_lt hc) hbr
          | succ m =>
            rw [List.get_cons_succ]
            exact hearlier m (Nat.lt_of_succ_lt_succ hj)
              (Nat.lt_of_succ_lt_succ hji)
        · intro j hj
          cases j with
          | zero => exact le_of_lt (lt_of_le_of_lt (le_of_not_lt hc) hbr)
          | succ m =>
            rw [List.get_cons_succ]
            exact hall m (Nat.lt_of_succ_lt_succ hj)

theorem foldl_skipNone_eq_reduceOption (g : Nat → Option SymbolSyncResult)
    (l : List Nat) :
    ∀ b, l.foldl (fun best c => skipNoneUpdate (g c) best) b
      = ((l.map g).reduceOption).foldl updateBest b := by
  induction l with
  | nil => intro b; rfl
  | cons c rest ih =>
    intro b
    rw [List.foldl_cons, List.map_cons]
    cases hg : g c with
    | none =>
      rw [List.reduceOption_cons_of_none]
      exact ih b
    | some x =>
      rw [List.reduceOption_cons_of_some, List.foldl_cons]
      exact ih (updateBest b x)

theorem scanLoop_eq_foldl (p : RealPrims) (signal : List ℚ)
    (k : SymbolKernel) (reference : List ℚ) (norm : ℚ) (spb : Nat) :
    ∀ (offsets : List Nat),
      (∀ s ∈ offsets,
        (symbolDifferences p signal s k reference.length).length
          = reference.length) →
      ∀ best, scanLoop p signal k reference norm spb offsets best
        = ((offsets.map fun s =>
            (correlate p (symbolDifferences p signal s k reference.length)
              reference norm).map fun sc =>
                SymbolSyncResult.mk s spb sc).reduceOption).foldl
          updateBest best := by
  intro offsets
  induction offsets with
  | nil => intro _ best; rfl
  | cons s rest ih =>
    intro hfull best
    rw [scanLoop, if_neg (by
      rw [hfull s (List.mem_cons_self s rest)]
      exact fun hcontra => hcontra rfl)]
    rw [List.map_cons]
    cases hc : correlate p
        (symbolDifferences p signal s k reference.length) reference norm with
    | none =>
      simp only [Option.map]
      rw [List.reduceOption_cons_of_none]
      exact ih (fun d hd => hfull d (List.mem_cons_of_mem _ hd)) best
    | some sc =>
      simp only [Option.map]
      rw [List.reduceOption_cons_of_some, List.foldl_cons]
      exact ih (fun d hd => hfull d (List.mem_cons_of_mem _ hd))
        (updateBest best ⟨s, spb, sc⟩)

theorem pyRangeIncl_ascending (lo hi step : Nat) :
    List.Pairwise (· ≤ ·) (pyRangeIncl lo hi step) := by
  rw [pyRangeIncl]
  split_ifs with h
  · exact List.Pairwise.nil
  · refine List.Pairwise.map _ ?_ (List.pairwise_lt_range _)
    intro a b hab
    have : a * step ≤ b * step := Nat.mul_le_mul_right step (le_of_lt hab)
    omega

theorem syncCandidates_ascending (sampleRate bitRate : ℚ) :
    List.Pairwise (· ≤ ·) (syncCandidates sampleRate bitRate) :=
  List.sorted_insertionSort (· ≤ ·) _

/-- C10: decode is deterministic and ties break toward the first
candidate in the fixed enumeration order.  In the embedding every stage is
a pure function, so determinism proper is the (definitional) first
conjunct.  The substantive content is the tie-break: (2) the best-so-far
fold with the strict `score > best.score` update selects exactly the first
element attaining the maximal score — every earlier element scores
strictly lower, no element scores higher; (3) `_synchronize` is that fold
over the per-candidate results taken in candidate enumeration order; (4)
candidate samples-per-bit values are enumerated in ascending order; (5)
`_scan_for_preamble` is the same fold over the scored scan offsets
whenever no offset aborts the scan early (which the caller's
`max_start` bound guarantees); (6) scan offsets are enumerated in
ascending order. -/
theorem sync_deterministic_first_wins :
    (∀ (p : RealPrims) (cfg : ModemConfig) (w w2 : List ℚ), w = w2 →
      decodeModel p cfg w = decodeModel p cfg w2)
    ∧ (∀ (results : List SymbolSyncResult),
        (results.foldl updateBest none = none ↔ results = [])
        ∧ ∀ r, results.foldl updateBest none = some r →
            ∃ i, ∃ hi : i < results.length, results.get ⟨i, hi⟩ = r
              ∧ (∀ j (hj : j < results.length), j < i →
                  (results.get ⟨j, hj⟩).score < r.score)
              ∧ ∀ j (hj : j < results.length),
                  (results.get ⟨j, hj⟩).score ≤ r.score)
    ∧ (∀ (p : RealPrims) (signal : List ℚ) (sr br f0 f1 : ℚ)
        (pre : String),
        synchronize p signal sr br f0 f1 pre
          = if (preambleArray pre).length = 0 then none
            else (((syncCandidates sr br).map fun c =>
                perCandidate p signal sr f0 f1
                  ((preambleArray pre).map fun b =>
                    if b > 0 then (1 : ℚ) else -1)
                  (if p.sqrt (sumSq ((preambleArray pre).map fun b =>
                      if b > 0 then (1 : ℚ) else -1)) = 0 then 1
                   else p.sqrt (sumSq ((preambleArray pre).map fun b =>
                      if b > 0 then (1 : ℚ) else -1)))
                  c).reduceOption).foldl updateBest none)
    ∧ (∀ sr br : ℚ, List.Pairwise (· ≤ ·) (syncCandidates sr br))
    ∧ (∀ (p : RealPrims) (signal : List ℚ) (k : SymbolKernel)
        (reference : List ℚ) (norm : ℚ) (spb : Nat)
        (offsets : List Nat),
        (∀ s ∈ offsets,
          (symbolDifferences p signal s k reference.length).length
            = reference.length) →
        scanLoop p signal k reference norm spb offsets none
          = ((offsets.map fun s =>
              (correlate p
                (symbolDifferences p signal s k reference.length)
                reference norm).map fun sc =>
                  SymbolSyncResult.mk s spb sc).reduceOption).foldl
            updateBest none)
    ∧ (∀ lo hi step : Nat,
        List.Pairwise (· ≤ ·) (pyRangeIncl lo hi step)) := by
  refine ⟨?_, ?_, ?_, syncCandidates_ascending, ?_, pyRangeIncl_ascending⟩
  · intro p cfg w w2 hw
    rw [hw]
  · intro results
    constructor
    · constructor
      · intro hfold
        cases results with
        | nil => rfl
        | cons c rest =>
          rw [List.foldl_cons] at hfold
          exact absurd hfold (foldl_updateBest_ne_none rest c)
      · intro hnil
        subst hnil
        rfl
    · intro r hfold
      cases results with
      | nil => exact absurd hfold (by simp)
      | cons c rest =>
        rw [List.foldl_cons] at hfold
        rcases foldl_updateBest_spec rest c r hfold with
          ⟨rfl, hall⟩ | ⟨i, hi, hget, hbr, hearlier, hall⟩
        · refine ⟨0, Nat.succ_pos _, rfl, ?_, ?_⟩
          · intro j hj hj0
            exact absurd hj0 (Nat.not_lt_zero j)
          · intro j hj
            cases j with
            | zero => exact le_refl _
            | succ m =>
              rw [List.get_cons_succ]
              exact hall m (Nat.lt_of_succ_lt_succ hj)
        · refine ⟨i + 1, Nat.succ_lt_succ hi, ?_, ?_, ?_⟩
          · rw [List.get_cons_succ]
            exact hget
          · intro j hj hji
            cases j with
            | zero => exact hbr
            | succ m =>
              rw [List.get_cons_succ]
              exact hearlier m (Nat.lt_of_succ_lt_succ hj)
                (Nat.lt_of_succ_lt_succ hji)
          · intro j hj
            cases j with
            | zero => exact le_of_lt hbr
            | succ m =>
              rw [List.get_cons_succ]
              exact hall m (Nat.lt_of_succ_lt_succ hj)
  · intro p signal sr br f0 f1 pre
    rw [synchronize]
    split_ifs with h
    · rfl
    · exact foldl_skipNone_eq_reduceOption _ _ none
    · exact foldl_skipNone_eq_reduceOption _ _ none
  · intro p signal k reference norm spb offsets hfull
    exact scanLoop_eq_foldl p signal k reference norm spb offsets hfull none

/-- Witness for C10 on an exact score tie: with two candidates of equal
score one half, the fold selects the first one. -/
theorem sync_deterministic_first_wins_witness :
    ∃ i, ∃ hi : i <
        ([⟨0, 8, 1/2⟩, ⟨5, 8, 1/2⟩] : List SymbolSyncResult).length,
      ([⟨0, 8, 1/2⟩, ⟨5, 8, 1/2⟩] : List SymbolSyncResult).get ⟨i, hi⟩
          = ⟨0, 8, 1/2⟩
        ∧ (∀ j (hj : j <
            ([⟨0, 8, 1/2⟩, ⟨5, 8, 1/2⟩] : List SymbolSyncResult).length),
            j < i →
            (([⟨0, 8, 1/2⟩, ⟨5, 8, 1/2⟩]
              : List SymbolSyncResult).get ⟨j, hj⟩).score < (1 : ℚ)/2)
        ∧ ∀ j (hj : j <
            ([⟨0, 8, 1/2⟩, ⟨5, 8, 1/2⟩] : List SymbolSyncResult).length),
            (([⟨0, 8, 1/2⟩, ⟨5, 8, 1/2⟩]
              : List SymbolSyncResult).get ⟨j, hj⟩).score ≤ (1 : ℚ)/2 :=
  (sync_deterministic_first_wins.2.1
    [⟨0, 8, 1/2⟩, ⟨5, 8, 1/2⟩]).2 ⟨0, 8, 1/2⟩
    (by
      simp only [List.foldl_cons, List.foldl_nil, updateBest]
      norm_num)
